import Mathlib

set_option maxRecDepth 100000

/-!
# Verification of the dynasent ByzCoin light-client core

Shallow embedding of the security-critical core of the repository:
the inclusion-proof verifier (`Proof.verify`, `Proof.exists`), the
transaction builder/signer (`Instruction.hash`, `Instruction.deriveId`,
`ClientTransaction.hash`, `signWith`, `updateCounters`,
`updateCountersAndSign`) and the query path (`ByzCoinRPC.getProof`).

Bytes are `List Nat` with every element `< 256` at use sites; 32-bit
machine arithmetic is `Nat` reduced `% 2 ^ 32`.  External collaborators
that are not part of the repository's sources (skipchain block hashing,
forward-link signature checking, roster service keys) are abstract
components supplied through an environment record.
-/

namespace Dynasent

/-! ## SHA-256 (FIPS 180-4) over byte lists, in `Nat` arithmetic -/

/-- Truncate to a 32-bit word. -/
def w32 (n : Nat) : Nat := n % 4294967296

/-- Right-rotation of a 32-bit word. -/
def rotr (n x : Nat) : Nat := w32 ((x >>> n) ||| (x <<< (32 - n)))

/-- Choice function `Ch(x,y,z)`; complement taken inside 32 bits. -/
def ch (x y z : Nat) : Nat := (x &&& y) ^^^ ((4294967295 - x) &&& z)

/-- Majority function `Maj(x,y,z)`. -/
def maj (x y z : Nat) : Nat := (x &&& y) ^^^ (x &&& z) ^^^ (y &&& z)

def bsig0 (x : Nat) : Nat := rotr 2 x ^^^ rotr 13 x ^^^ rotr 22 x
def bsig1 (x : Nat) : Nat := rotr 6 x ^^^ rotr 11 x ^^^ rotr 25 x
def ssig0 (x : Nat) : Nat := rotr 7 x ^^^ rotr 18 x ^^^ (x >>> 3)
def ssig1 (x : Nat) : Nat := rotr 17 x ^^^ rotr 19 x ^^^ (x >>> 10)

/-- The 64 SHA-256 round constants (FIPS 180-4 section 4.2.2), in decimal. -/
def K256 : List Nat :=
  [1116352408, 1899447441, 3049323471, 3921009573,
   961987163, 1508970993, 2453635748, 2870763221,
   3624381080, 310598401, 607225278, 1426881987,
   1925078388, 2162078206, 2614888103, 3248222580,
   3835390401, 4022224774, 264347078, 604807628,
   770255983, 1249150122, 1555081692, 1996064986,
   2554220882, 2821834349, 2952996808, 3210313671,
   3336571891, 3584528711, 113926993, 338241895,
   666307205, 773529912, 1294757372, 1396182291,
   1695183700, 1986661051, 2177026350, 2456956037,
   2730485921, 2820302411, 3259730800, 3345764771,
   3516065817, 3600352804, 4094571909, 275423344,
   430227734, 506948616, 659060556, 883997877,
   958139571, 1322822218, 1537002063, 1747873779,
   1955562222, 2024104815, 2227730452, 2361852424,
   2428436474, 2756734187, 3204031479, 3329325298]

/-- The eight SHA-256 initial hash values (FIPS 180-4 section 5.3.3), in decimal. -/
def IV256 : List Nat :=
  [1779033703, 3144134277, 1013904242, 2773480762,
   1359893119, 2600822924, 528734635, 1541459225]

/-- Big-endian 8-byte encoding of a (length-in-bits) value. -/
def be8 (n : Nat) : List Nat :=
  [(n >>> 56) % 256, (n >>> 48) % 256, (n >>> 40) % 256, (n >>> 32) % 256,
   (n >>> 24) % 256, (n >>> 16) % 256, (n >>> 8) % 256, n % 256]

/-- SHA-256 padding: `0x80`, zeros to 56 mod 64, then the bit length big-endian. -/
def sha256pad (msg : List Nat) : List Nat :=
  msg ++ 128 :: List.replicate ((119 - msg.length % 64) % 64) 0 ++ be8 (msg.length * 8)

/-- Split a byte list into 64-byte blocks (the fuel is the list length,
which strictly bounds the number of blocks). -/
def toBlocksAux : Nat → List Nat → List (List Nat)
  | 0, _ => []
  | _, [] => []
  | fuel + 1, l => l.take 64 :: toBlocksAux fuel (l.drop 64)

def toBlocks (l : List Nat) : List (List Nat) := toBlocksAux l.length l

/-- The first 16 words of the message schedule: big-endian 32-bit words of the block. -/
def blockWords : List Nat → List Nat
  | b0 :: b1 :: b2 :: b3 :: rest =>
      (b0 <<< 24 ||| b1 <<< 16 ||| b2 <<< 8 ||| b3) :: blockWords rest
  | _ => []

/-- Extend a 16-word schedule to 64 words; `w` is kept in reverse order. -/
def extendWords : Nat → List Nat → List Nat
  | 0, w => w
  | fuel + 1, w =>
      let g (i : Nat) : Nat := w.getD i 0
      extendWords fuel (w32 (ssig1 (g 1) + g 6 + ssig0 (g 14) + g 15) :: w)

/-- The full 64-word message schedule of one block. -/
def schedule (block : List Nat) : List Nat :=
  (extendWords 48 (blockWords block).reverse).reverse

/-- One round of the SHA-256 compression function. -/
def round (st : List Nat) (kw : Nat × Nat) : List Nat :=
  match st with
  | [a, b, c, d, e, f, g, h] =>
      let t1 := w32 (h + bsig1 e + ch e f g + kw.1 + kw.2)
      let t2 := w32 (bsig0 a + maj a b c)
      [w32 (t1 + t2), a, b, c, w32 (d + t1), e, f, g]
  | st => st

/-- Compress one 64-byte block into the running state. -/
def compress (st : List Nat) (block : List Nat) : List Nat :=
  let out := (K256.zip (schedule block)).foldl round st
  (st.zip out).map fun p => w32 (p.1 + p.2)

/-- Big-endian 4-byte encoding of a 32-bit word. -/
def be4 (n : Nat) : List Nat :=
  [(n >>> 24) % 256, (n >>> 16) % 256, (n >>> 8) % 256, n % 256]

/-- SHA-256 digest (32 bytes) of a byte list. -/
def sha256 (msg : List Nat) : List Nat :=
  (((toBlocks (sha256pad msg)).foldl compress IV256).map be4).flatten

/-! ## Byte encodings used by the source (`Buffer.writeUInt32LE`, `Long.toBytesLE`) -/

/-- 4-byte little-endian encoding (`Buffer.writeUInt32LE` / `writeIntLE(..,0,4)`). -/
def le4 (n : Nat) : List Nat :=
  [n % 256, (n >>> 8) % 256, (n >>> 16) % 256, (n >>> 24) % 256]

/-- 8-byte little-endian encoding (`Long.toBytesLE`, 64-bit). -/
def le8 (n : Nat) : List Nat :=
  [n % 256, (n >>> 8) % 256, (n >>> 16) % 256, (n >>> 24) % 256,
   (n >>> 32) % 256, (n >>> 40) % 256, (n >>> 48) % 256, (n >>> 56) % 256]

/-- UTF-8 bytes of a string (`Buffer.from(s)`). -/
def utf8Bytes (s : String) : List Nat := s.toUTF8.data.toList.map UInt8.toNat

/-! ## Trie inclusion proofs (src/lib/cothority/byzcoin/proof.ts)

The TS field `prefix` is a Lean keyword; it is embedded as `prefixBits`. -/

structure InteriorNode where
  left : List Nat
  right : List Nat
deriving DecidableEq

structure LeafNode where
  prefixBits : List Bool
  key : List Nat
  value : List Nat
deriving DecidableEq

structure EmptyNode where
  prefixBits : List Bool
deriving DecidableEq

structure InclusionProof where
  interiors : List InteriorNode
  leaf : LeafNode
  empty : EmptyNode
  nonce : List Nat
deriving DecidableEq

/-- Embedding of `hashToBits`: the 256 bits of `sha256(key)`, MSB of byte 0 first, embedding
`((hash[i >> 3] << (i % 8)) & (1 << 7)) > 0`. -/
def hashToBits (key : List Nat) : List Bool :=
  let h := sha256 key
  (List.range (h.length * 8)).map fun i => (((h.getD (i >>> 3) 0) <<< (i % 8)) &&& 128) > 0

/-- Embedding of `boolToBuffer`: pack a bit list into bytes, bit `i` landing at
`buf[i >> 3] |= (1 << 7) >> (i % 8)`. -/
def boolToBuffer (bits : List Bool) : List Nat :=
  (List.range ((bits.length + 7) >>> 3)).map fun byteIdx =>
    (List.range 8).foldl
      (fun acc j => if bits.getD (byteIdx * 8 + j) false then acc ||| (128 >>> j) else acc) 0

/-- lodash `_.difference(a, b)`: the elements of `a` (order and multiplicity
kept) that do not occur anywhere in `b`, compared by value. -/
def lodashDifference (a b : List Bool) : List Bool :=
  a.filter fun x => !(b.contains x)

namespace InclusionProof

/-- Embedding of `hashInterior(index)`: sha256 of the node's left and right child hashes.
An out-of-range index crashes in TS; the embedding totalizes it with an
empty node, which no theorem relies on. -/
def hashInterior (p : InclusionProof) (index : Nat) : List Nat :=
  let node := p.interiors.getD index ⟨[], []⟩
  sha256 (node.left ++ node.right)

/-- Embedding of `hashLeaf()`: tag byte 3, nonce, packed prefix, 4-byte LE prefix bit
count, key, value. -/
def hashLeaf (p : InclusionProof) : List Nat :=
  sha256 (3 :: p.nonce ++ boolToBuffer p.leaf.prefixBits ++ le4 p.leaf.prefixBits.length
    ++ p.leaf.key ++ p.leaf.value)

/-- Embedding of `hashEmpty()`: tag byte 2, nonce, packed prefix, 4-byte LE prefix bit count. -/
def hashEmpty (p : InclusionProof) : List Nat :=
  sha256 (2 :: p.nonce ++ boolToBuffer p.empty.prefixBits ++ le4 p.empty.prefixBits.length)

end InclusionProof

instance {ε α} [DecidableEq ε] [DecidableEq α] : DecidableEq (Except ε α)
  | .ok a, .ok b =>
      if h : a = b then isTrue (by rw [h]) else isFalse (fun hc => by cases hc; exact h rfl)
  | .ok _, .error _ => isFalse (fun hc => by cases hc)
  | .error _, .ok _ => isFalse (fun hc => by cases hc)
  | .error e, .error f =>
      if h : e = f then isTrue (by rw [h]) else isFalse (fun hc => by cases hc; exact h rfl)

/-- The errors `Proof.exists` can throw. -/
inductive ExistsError
  | keyIsNil
  | noInteriorNode
  | invalidInterior
  | invalidLeafPrefix
  | invalidEmptyPrefix
  | noMatchingNode
deriving DecidableEq

/-! ## Chain part of a proof: external skipchain collaborators

`SkipBlock.computeHash`, `ForwardLink.verify` and
`Roster.getServicePublics` live outside src/ (skipchain module); they are
abstract components of a `VerifyEnv`. -/

structure Roster where
  id : Nat
deriving DecidableEq

structure SkipBlock where
  hash : List Nat
  data : List Nat
  roster : Roster
deriving DecidableEq

/-- A forward link; `from` is a Lean keyword and is embedded as `from_`.
`signature` stands for the aggregate signature object, consumed only by the
abstract link verifier. -/
structure ForwardLink where
  from_ : List Nat
  to_ : List Nat
  newRoster : Option Roster
  signature : List Nat
deriving DecidableEq

instance : Inhabited ForwardLink := ⟨⟨[], [], none, []⟩⟩

structure VerifyEnv where
  computeHash : SkipBlock → List Nat
  trieRootOf : List Nat → List Nat
  servicePublics : Roster → List (List Nat)
  linkVerify : ForwardLink → List (List Nat) → Bool

structure Proof where
  inclusionproof : InclusionProof
  latest : SkipBlock
  links : List ForwardLink
deriving DecidableEq

/-- The errors `Proof.verify` can return (each a distinct `Error` message in
TS); `noForwardLinkCrash` models the `TypeError` thrown by `links[0].to` on
an empty link list. -/
inductive VerifyError
  | invalidLatestBlock
  | invalidRoot
  | noForwardLinkCrash
  | firstLinkNotGenesis
  | invalidLinkSignature
  | invalidChainOfLinks
  | lastLinkNotLatest
deriving DecidableEq

/-- The roster replacement performed at the end of a loop iteration:
`if (link.newRoster) publics = link.newRoster.getServicePublics(...)`. -/
def rosterUpdate (env : VerifyEnv) (publics : List (List Nat)) (link : ForwardLink) :
    List (List Nat) :=
  match link.newRoster with
  | some r => env.servicePublics r
  | none => publics

/-- The `for` loop of `Proof.verify` over `links[1..]` together with the
final `prev == latest.hash` check. -/
def walkLinks (env : VerifyEnv) (latestHash : List Nat) :
    List (List Nat) → List Nat → List ForwardLink → Option VerifyError
  | _, prev, [] => if prev ≠ latestHash then some .lastLinkNotLatest else none
  | publics, prev, link :: rest =>
      if !env.linkVerify link publics then some .invalidLinkSignature
      else if link.from_ ≠ prev then some .invalidChainOfLinks
      else walkLinks env latestHash (rosterUpdate env publics link) link.to_ rest

namespace Proof

/-- Embedding of `Proof.verify(genesisID)`: recompute the latest block hash, compare the
trie root, anchor `links[0]` at the genesis, then walk the forward links. -/
def verify (env : VerifyEnv) (p : Proof) (genesisID : List Nat) : Option VerifyError :=
  if env.computeHash p.latest ≠ p.latest.hash then some .invalidLatestBlock
  else if p.inclusionproof.hashInterior 0 ≠ env.trieRootOf p.latest.data then some .invalidRoot
  else
    match p.links with
    | [] => some .noForwardLinkCrash
    | l0 :: rest =>
      if l0.to_ ≠ genesisID then some .firstLinkNotGenesis
      else walkLinks env p.latest.hash (env.servicePublics p.latest.roster) l0.to_ rest

/-- The descent loop of `Proof.exists`: at index `i` the node at the head of
`nodes` is `interiors[i]`, so `hashInterior(i)` is the sha256 of its two
children; on a match descend to the left child when bit `i` is set. -/
def existsWalk (bits : List Bool) :
    List InteriorNode → Nat → List Nat → Except ExistsError (List Nat)
  | [], _, expected => .ok expected
  | node :: rest, i, expected =>
      if expected ≠ sha256 (node.left ++ node.right) then .error .invalidInterior
      else existsWalk bits rest (i + 1) (if bits.getD i false then node.left else node.right)

/-- Embedding of `Proof.exists(key)`.  Note that the terminal prefix checks use lodash
`_.difference`, not sequence equality, exactly as the source does. -/
def exists? (p : Proof) (key : List Nat) : Except ExistsError Bool :=
  if key.length = 0 then .error .keyIsNil
  else if p.inclusionproof.interiors.length = 0 then .error .noInteriorNode
  else
    let bits := hashToBits key
    match existsWalk bits p.inclusionproof.interiors 0 (p.inclusionproof.hashInterior 0) with
    | .error e => .error e
    | .ok expected =>
      let i := p.inclusionproof.interiors.length
      if expected = p.inclusionproof.hashLeaf then
        if lodashDifference (bits.take i) p.inclusionproof.leaf.prefixBits ≠ [] then
          .error .invalidLeafPrefix
        else .ok (p.inclusionproof.leaf.key == key)
      else if expected = p.inclusionproof.hashEmpty then
        if lodashDifference (bits.take i) p.inclusionproof.empty.prefixBits ≠ [] then
          .error .invalidEmptyPrefix
        else .ok false
      else .error .noMatchingNode

end Proof

/-! ## Specification-side descriptions of the trie walk and the link walk -/

/-- The expected hash maintained by the `exists` loop, by depth: depth 0 is
`hashInterior(0)`, and depth `i+1` is the left or the right child of interior
node `i` according to bit `i`. -/
def expectedAt (ip : InclusionProof) (bits : List Bool) : Nat → List Nat
  | 0 => ip.hashInterior 0
  | i + 1 =>
      let node := ip.interiors.getD i ⟨[], []⟩
      if bits.getD i false then node.left else node.right

/-- The roster in effect when link number `i` of `links[1..]` is checked:
the base service keys, updated by every `newRoster` carried by a link
strictly before `i`. -/
def effPublics (env : VerifyEnv) : List (List Nat) → List ForwardLink → Nat → List (List Nat)
  | publics, _, 0 => publics
  | publics, [], _ + 1 => publics
  | publics, link :: rest, i + 1 => effPublics env (rosterUpdate env publics link) rest i

/-- Every link's `from` equals the previous link's `to`. -/
def chainOkB : List Nat → List ForwardLink → Bool
  | _, [] => true
  | prev, link :: rest => link.from_ == prev && chainOkB link.to_ rest

/-- The final value of `prev` after the walk. -/
def lastTo : List Nat → List ForwardLink → List Nat
  | prev, [] => prev
  | _, link :: rest => lastTo link.to_ rest

/-! ## Transactions (src/lib/cothority/byzcoin/instance.ts, ClientTransaction part) -/

structure IdentityWrapper where
  bytes : List Nat
deriving DecidableEq

/-- An `IIdentity`: its canonical string (`toString()`, the key used for
deduplication and counter lookup) and its wrapper (`toWrapper()`). -/
structure IIdentity where
  str : String
  wrapper : IdentityWrapper
deriving DecidableEq

instance : Inhabited IIdentity := ⟨⟨"", ⟨[]⟩⟩⟩

/-- A signer: its identity facet plus `sign(msg)`, the external
Schnorr signature left abstract. -/
structure Signer where
  id : IIdentity
  sign : List Nat → List Nat

structure Argument where
  name : String
  value : List Nat
deriving DecidableEq

/-- Exactly one of `spawn` / `invoke` / `delete` is set on an instruction
(`type` throws otherwise, a case the builders never produce). -/
inductive InstructionBody
  | spawn (contractID : String) (args : List Argument)
  | invoke (contractID : String) (command : String) (args : List Argument)
  | delete (contractID : String)
deriving DecidableEq

structure Instruction where
  instanceID : List Nat
  body : InstructionBody
  signerCounter : List Nat
  signerIdentities : List IdentityWrapper
  signatures : List (List Nat)
deriving DecidableEq

instance : Inhabited Instruction := ⟨⟨[], .delete "", [], [], []⟩⟩

namespace Instruction

/-- Embedding of `get type()`: 0 for spawn, 1 for invoke, 2 for delete. -/
def typeNum (i : Instruction) : Nat :=
  match i.body with
  | .spawn .. => 0
  | .invoke .. => 1
  | .delete .. => 2

def contractID (i : Instruction) : String :=
  match i.body with
  | .spawn c _ => c
  | .invoke c _ _ => c
  | .delete c => c

/-- The argument list hashed by `hash()`; delete instructions hash none. -/
def args (i : Instruction) : List Argument :=
  match i.body with
  | .spawn _ a => a
  | .invoke _ _ a => a
  | .delete _ => []

/-- One argument's contribution: 8-byte LE length of the UTF-8 name, the
name, 8-byte LE length of the value, the value. -/
def argBytes (a : Argument) : List Nat :=
  le8 (utf8Bytes a.name).length ++ utf8Bytes a.name ++ le8 a.value.length ++ a.value

/-- The byte stream fed to sha256 by `Instruction.hash`: instance ID, type
tag byte, contract ID, arguments, counters (8-byte LE each), identities
(8-byte LE length prefix each).  An invoke's `command` is not hashed, and
the `signatures` field never contributes. -/
def hashInput (i : Instruction) : List Nat :=
  i.instanceID ++ i.typeNum :: utf8Bytes i.contractID
    ++ (i.args.map argBytes).flatten
    ++ (i.signerCounter.map le8).flatten
    ++ (i.signerIdentities.map fun si => le8 si.bytes.length ++ si.bytes).flatten

def hash (i : Instruction) : List Nat := sha256 i.hashInput

/-- Embedding of `deriveId(what)`: sha256 of the instruction hash, the 4-byte LE
signature count, each signature with a 4-byte LE length prefix, and the
discriminant string. -/
def deriveId (i : Instruction) (what : String) : List Nat :=
  sha256 (i.hash ++ le4 i.signatures.length
    ++ (i.signatures.map fun sig => le4 sig.length ++ sig).flatten ++ utf8Bytes what)

/-- Embedding of `Instruction.signWith(ctxHash, signers)`: replace the signature list. -/
def signWith (i : Instruction) (ctxHash : List Nat) (signers : List Signer) : Instruction :=
  { i with signatures := signers.map fun s => s.sign ctxHash }

end Instruction

structure ClientTransaction where
  instructions : List Instruction
deriving DecidableEq

/-! ### Counter bookkeeping (`updateCounters`)

The `signerCounters` JS object is an association list from canonical
identity strings to counters. -/

abbrev CounterMap := List (String × Nat)

def mapGet (m : CounterMap) (k : String) : Nat :=
  match m.find? (fun p => p.1 == k) with
  | some p => p.2
  | none => 0

def mapSet : CounterMap → String → Nat → CounterMap
  | [], k, v => [(k, v)]
  | p :: rest, k, v => if p.1 = k then (k, v) :: rest else p :: mapSet rest k v

/-- The dedup filter `us.filter((us, i) => findIndex(.. toString ..) === i)`:
keep an element exactly when its index is the first index carrying its
canonical string. -/
def dedupByStr (l : List IIdentity) : List IIdentity :=
  (l.enum.filter fun p => l.findIdx (fun y => y.str == p.2.str) == p.1).map fun p => p.2

/-- The inner `forEach` of the assignment loop: push each signer's wrapper
and its current counter onto instruction `i`, bumping the map as used. -/
def assignOne (m : CounterMap) (instr : Instruction) (group : List IIdentity) :
    Instruction × CounterMap :=
  group.foldl
    (fun p s =>
      ({ p.1 with
          signerIdentities := p.1.signerIdentities ++ [s.wrapper],
          signerCounter := p.1.signerCounter ++ [mapGet p.2 s.str] },
       mapSet p.2 s.str (mapGet p.2 s.str + 1)))
    (instr, m)

/-- The outer `for` loop over instructions, threading the counter map. -/
def assignAll : CounterMap → List Instruction → List (List IIdentity) →
    List Instruction × CounterMap
  | m, [], _ => ([], m)
  | m, instrs, [] => (instrs, m)
  | m, instr :: irest, group :: grest =>
      let p := assignOne m instr group
      let q := assignAll p.2 irest grest
      (p.1 :: q.1, q.2)

/-- The unique identities across all signer groups. -/
def uniqOf (signers : List (List IIdentity)) : List IIdentity :=
  dedupByStr signers.flatten

/-- The map built from the single fetch: canonical strings zipped with the
returned counters.  (If the server returned a short list the TS code would
store `undefined` and crash on `.add`; `zip` simply drops such entries.) -/
def baseMap (fetch : List IIdentity → List Nat) (signers : List (List IIdentity)) : CounterMap :=
  ((uniqOf signers).map IIdentity.str).zip (fetch (uniqOf signers))

namespace ClientTransaction

/-- Embedding of `ClientTransaction.hash()`: sha256 of the concatenated instruction hashes. -/
def hash (tx : ClientTransaction) : List Nat :=
  sha256 ((tx.instructions.map Instruction.hash).flatten)

/-- Embedding of `signWith(signers)`: the combined hash is computed first, the group
count must match the instruction count, and every instruction's signatures
are taken over the combined hash. -/
def signWith (tx : ClientTransaction) (signers : List (List Signer)) :
    Except String ClientTransaction :=
  let ctxHash := tx.hash
  if signers.length ≠ tx.instructions.length then
    .error "need same number of signers as instructions"
  else
    .ok ⟨List.zipWith (fun instr group => instr.signWith ctxHash group) tx.instructions signers⟩

/-- Embedding of `updateCounters(rpc, signers)`.  The second component records the
argument of every `getSignerCounters` round trip performed. -/
def updateCounters (fetch : List IIdentity → List Nat) (tx : ClientTransaction)
    (signers : List (List IIdentity)) :
    Except String ClientTransaction × List (List IIdentity) :=
  if tx.instructions.length = 0 then (.ok tx, [])
  else if signers.length ≠ tx.instructions.length then
    (.error "length of signers and instructions do not match", [])
  else
    let uniqueSigners := dedupByStr signers.flatten
    let counters := fetch uniqueSigners
    let m0 : CounterMap := (uniqueSigners.map IIdentity.str).zip counters
    (.ok ⟨(assignAll m0 tx.instructions signers).1⟩, [uniqueSigners])

/-- Embedding of `updateCountersAndSign(rpc, signers)`: a single signer group is first
replicated to the instruction count, then counters are fetched and the
transaction signed. -/
def updateCountersAndSign (fetch : List IIdentity → List Nat) (tx : ClientTransaction)
    (signers : List (List Signer)) :
    Except String ClientTransaction × List (List IIdentity) :=
  let signers2 :=
    if signers.length = 1 then
      signers ++ List.replicate (tx.instructions.length - 1) (signers.getD 0 [])
    else signers
  let r := updateCounters fetch tx (signers2.map fun g => g.map Signer.id)
  match r.1 with
  | .error e => (.error e, r.2)
  | .ok tx2 => (tx2.signWith signers2, r.2)

end ClientTransaction

/-! ### Specification-side counter bookkeeping -/

/-- Number of occurrences of canonical string `k` in an identity list. -/
def occStr (k : String) (l : List IIdentity) : Nat :=
  (l.filter fun t => t.str == k).length

/-- The signer occurrences strictly before position `j` of instruction `i`:
all earlier instructions' groups, then the first `j` of group `i`. -/
def priorOcc (signers : List (List IIdentity)) (i j : Nat) : List IIdentity :=
  (signers.take i).flatten ++ (signers.getD i []).take j

/-- The counters handed out to one group from map `m`, in order. -/
def countersFrom (m : CounterMap) : List IIdentity → List Nat
  | [] => []
  | s :: rest => mapGet m s.str :: countersFrom (mapSet m s.str (mapGet m s.str + 1)) rest

/-- Bump the counter of every identity of `l`, in order. -/
def bumpAll (m : CounterMap) (l : List IIdentity) : CounterMap :=
  l.foldl (fun m s => mapSet m s.str (mapGet m s.str + 1)) m

/-! ## The query path (src/lib/cothority/byzcoin/byzcoin-rpc.ts) -/

def currentVersion : Nat := 1

structure GetProofRequest where
  id : List Nat
  key : List Nat
  version : Nat
deriving DecidableEq

structure GetProofResponse where
  proof : Proof
deriving DecidableEq

/-- The RPC: its cached genesis block hash and the connection's `send`,
specialized to the GetProof exchange. -/
structure ByzCoinRPC where
  genesisHash : List Nat
  conn : GetProofRequest → GetProofResponse

/-- Embedding of `getProof(id)`: build the request, send it, return the reply's proof.
The `reply.proof.verify` call is commented out in the source; the return
type `Proof` (not `Except`) reflects that no chain or trie check can
reject here. -/
def ByzCoinRPC.getProof (rpc : ByzCoinRPC) (id : List Nat) : Proof :=
  (rpc.conn { id := rpc.genesisHash, key := id, version := currentVersion }).proof

/-! ## Concrete fixtures -/

/-- C1: a leaf whose declared prefix `[true, false]` is NOT the walked bit
sequence `[false]`, yet contains the walked bit value. -/
def c1Leaf : LeafNode := ⟨[true, false], [1], [7]⟩

def c1Base : InclusionProof := ⟨[], c1Leaf, ⟨[]⟩, [9]⟩

def c1IP : InclusionProof := { c1Base with interiors := [⟨[0], c1Base.hashLeaf⟩] }

def c1Proof : Proof := ⟨c1IP, ⟨[], [], ⟨0⟩⟩, []⟩

/-- C3 witness: a well-formed depth-2 existence proof for key `[2]`
(first two path bits `true, true`). -/
def c3Leaf : LeafNode := ⟨[true, true], [2], [3]⟩

def c3Base : InclusionProof := ⟨[], c3Leaf, ⟨[]⟩, [4]⟩

def c3Node1 : InteriorNode := ⟨c3Base.hashLeaf, [8]⟩

def c3Node0 : InteriorNode := ⟨sha256 (c3Node1.left ++ c3Node1.right), [6]⟩

def c3IP : InclusionProof := { c3Base with interiors := [c3Node0, c3Node1] }

def c3Proof : Proof := ⟨c3IP, ⟨[], [], ⟨0⟩⟩, []⟩

/-- C2 witness fixture: consistent latest block, first link pointing at `[9]`. -/
def c2IP : InclusionProof := ⟨[⟨[1], [2]⟩], ⟨[], [], []⟩, ⟨[]⟩, []⟩

def c2Block : SkipBlock := ⟨[3], [], ⟨0⟩⟩

def c2Env : VerifyEnv :=
  { computeHash := fun b => b.hash,
    trieRootOf := fun _ => c2IP.hashInterior 0,
    servicePublics := fun _ => [],
    linkVerify := fun _ _ => true }

def c2Proof : Proof := ⟨c2IP, c2Block, [⟨[], [9], none, []⟩]⟩

/-- C4 witness fixture: link 1 rotates the roster from `⟨0⟩` to `⟨1⟩`, and
link 2's signature only verifies against the rotated roster's key. -/
def c4IP : InclusionProof := ⟨[⟨[2], [1]⟩], ⟨[], [], []⟩, ⟨[]⟩, []⟩

def c4Block : SkipBlock := ⟨[3], [], ⟨0⟩⟩

def c4Env : VerifyEnv :=
  { computeHash := fun b => b.hash,
    trieRootOf := fun _ => c4IP.hashInterior 0,
    servicePublics := fun r => [[r.id]],
    linkVerify := fun link pubs => pubs.contains link.signature }

def c4L0 : ForwardLink := ⟨[], [7], none, []⟩

def c4L1 : ForwardLink := ⟨[7], [5], some ⟨1⟩, [0]⟩

def c4L2 : ForwardLink := ⟨[5], [3], none, [1]⟩

def c4Proof : Proof := ⟨c4IP, c4Block, [c4L0, c4L1, c4L2]⟩

/-- C5 witness fixture. -/
def c5I0 : Instruction := ⟨[0], .spawn "c" [⟨"a", [1]⟩], [], [], []⟩

def c5I1 : Instruction := ⟨[1], .invoke "c" "cmd" [], [], [], []⟩

def c5Tx : ClientTransaction := ⟨[c5I0, c5I1]⟩

def c5Signer : Signer := ⟨⟨"S", ⟨[5]⟩⟩, fun m => 0 :: m⟩

/-- C6 fixtures: one instruction and its three single-permutation variants. -/
def c6Base : Instruction :=
  ⟨[0], .spawn "c" [⟨"a", [1]⟩, ⟨"b", [2]⟩], [1, 2], [⟨[1]⟩, ⟨[2]⟩], []⟩

def c6ArgsSwapped : Instruction :=
  { c6Base with body := .spawn "c" [⟨"b", [2]⟩, ⟨"a", [1]⟩] }

def c6CountersSwapped : Instruction := { c6Base with signerCounter := [2, 1] }

def c6IdentitiesSwapped : Instruction := { c6Base with signerIdentities := [⟨[2]⟩, ⟨[1]⟩] }

/-- C7 fixture: an instruction carrying one signature. -/
def c7Instr : Instruction := ⟨[3], .delete "c", [], [], [[4, 5]]⟩

/-- C8 fixture: identities A and B, base counters 10 and 20, signer sets
`{A}, {A}, {B}` over three instructions. -/
def idA : IIdentity := ⟨"A", ⟨[1]⟩⟩

def idB : IIdentity := ⟨"B", ⟨[2]⟩⟩

def c8Fetch : List IIdentity → List Nat :=
  fun l => l.map fun s => if s.str = "A" then 10 else 20

def c8Tx : ClientTransaction :=
  ⟨[⟨[0], .delete "c", [], [], []⟩, ⟨[1], .delete "c", [], [], []⟩,
    ⟨[2], .delete "c", [], [], []⟩]⟩

def c8Signers : List (List IIdentity) := [[idA], [idA], [idB]]

/-- C10 fixture: two instructions, one signer group. -/
def c10Tx : ClientTransaction :=
  ⟨[⟨[0], .delete "c", [], [], []⟩, ⟨[1], .delete "c", [], [], []⟩]⟩

def c10G : List Signer := [⟨idA, fun m => 1 :: m⟩]

def c10Fetch : List IIdentity → List Nat := fun l => l.map fun _ => 3

/-- C9 fixture: a connection whose reply carries a proof that fails
verification (recomputed latest hash differs). -/
def badProof : Proof := ⟨⟨[], ⟨[], [], []⟩, ⟨[]⟩, []⟩, ⟨[1], [], ⟨0⟩⟩, []⟩

def envBad : VerifyEnv := ⟨fun _ => [99], fun _ => [], fun _ => [], fun _ _ => true⟩

def rpcBad : ByzCoinRPC := ⟨[7], fun _ => ⟨badProof⟩⟩

/-! # Theorems -/

/-! ## SHA-256 sanity: the two FIPS 180-4 test vectors -/

example : sha256 [] =
    [0xe3, 0xb0, 0xc4, 0x42, 0x98, 0xfc, 0x1c, 0x14, 0x9a, 0xfb, 0xf4, 0xc8, 0x99, 0x6f, 0xb9,
     0x24, 0x27, 0xae, 0x41, 0xe4, 0x64, 0x9b, 0x93, 0x4c, 0xa4, 0x95, 0x99, 0x1b, 0x78, 0x52,
     0xb8, 0x55] := by decide

example : sha256 [0x61, 0x62, 0x63] =
    [0xba, 0x78, 0x16, 0xbf, 0x8f, 0x01, 0xcf, 0xea, 0x41, 0x41, 0x40, 0xde, 0x5d, 0xae, 0x22,
     0x23, 0xb0, 0x03, 0x61, 0xa3, 0x96, 0x17, 0x7a, 0x9c, 0xb4, 0x10, 0xff, 0x61, 0xf2, 0x00,
     0x15, 0xad] := by decide

/-! ## C1: the terminal prefix check of `exists` -/

/-- C1 (code divergence): `exists([1])` walks one bit (`false`), the leaf's
declared prefix `[true, false]` is not that bit sequence, yet the call
returns `true` instead of throwing: the lodash `_.difference` check only
compares the sets of bit values, so a corrupted leaf (or empty) prefix can
silently pass.  This refutes the claim that a prefix unequal to the walked
bits always raises a ProtocolViolation. -/
theorem c1_prefix_check_divergence :
    Proof.exists? c1Proof [1] = .ok true
    ∧ c1Proof.inclusionproof.leaf.prefixBits
        ≠ (hashToBits [1]).take c1Proof.inclusionproof.interiors.length := by
  constructor
  · decide
  · decide

/-! ## C9: the query path performs no verification -/

/-- C9: `getProof` returns the reply's proof unchanged for every connection
and key, and in particular hands back (without any rejection) a proof that
fails `verify` — callers must verify explicitly. -/
theorem c9_get_proof_returns_reply_unverified :
    (∀ (rpc : ByzCoinRPC) (id : List Nat),
        ByzCoinRPC.getProof rpc id
          = (rpc.conn { id := rpc.genesisHash, key := id, version := currentVersion }).proof)
    ∧ Proof.verify envBad (ByzCoinRPC.getProof rpcBad [4]) [7] = some .invalidLatestBlock
    ∧ ByzCoinRPC.getProof rpcBad [4] = badProof := by
  refine ⟨fun _ _ => rfl, by decide, rfl⟩

/-! ## C6: `Instruction.hash` determinism and list-order sensitivity -/

/-- C6: the instruction hash is a pure function of instance ID, body,
counters and identities (the signature list in particular does not enter
it), and permuting the argument list, the counter list, or the identity
list of a concrete instruction changes the hash. -/
theorem c6_instruction_hash_order (i1 i2 : Instruction)
    (hid : i1.instanceID = i2.instanceID) (hb : i1.body = i2.body)
    (hc : i1.signerCounter = i2.signerCounter)
    (hsi : i1.signerIdentities = i2.signerIdentities) :
    Instruction.hash i1 = Instruction.hash i2
    ∧ Instruction.hash c6Base ≠ Instruction.hash c6ArgsSwapped
    ∧ Instruction.hash c6Base ≠ Instruction.hash c6CountersSwapped
    ∧ Instruction.hash c6Base ≠ Instruction.hash c6IdentitiesSwapped := by
  refine ⟨?_, by decide, by decide, by decide⟩
  cases i1
  cases i2
  simp only at hid hb hc hsi
  subst hid hb hc hsi
  rfl

/-- C6 witness: determinism applied at a concrete pair differing only in
signatures, plus the three concrete permutation separations. -/
theorem c6_witness :
    Instruction.hash c6Base = Instruction.hash { c6Base with signatures := [[9]] }
    ∧ Instruction.hash c6Base ≠ Instruction.hash c6ArgsSwapped
    ∧ Instruction.hash c6Base ≠ Instruction.hash c6CountersSwapped
    ∧ Instruction.hash c6Base ≠ Instruction.hash c6IdentitiesSwapped :=
  c6_instruction_hash_order c6Base { c6Base with signatures := [[9]] } rfl rfl rfl rfl

/-! ## C7: `deriveId` -/

/-- C7: `deriveId` is sha256 of the instruction hash, the 4-byte LE
signature count, each signature length-prefixed (4-byte LE), and the
discriminant; it is deterministic in its inputs; and on a concrete
instruction the empty and the `"x"` discriminants give different ids. -/
theorem c7_derive_id (i j : Instruction) (what v : String) (hij : i = j) (hwv : what = v) :
    Instruction.deriveId i what
      = sha256 (Instruction.hash i ++ le4 i.signatures.length
          ++ (i.signatures.map fun sig => le4 sig.length ++ sig).flatten ++ utf8Bytes what)
    ∧ Instruction.deriveId i what = Instruction.deriveId j v
    ∧ Instruction.deriveId c7Instr "" ≠ Instruction.deriveId c7Instr "x" := by
  refine ⟨rfl, by rw [hij, hwv], by decide⟩

/-- C7 witness: the instantiation at the concrete instruction. -/
theorem c7_witness :
    Instruction.deriveId c7Instr ""
      = sha256 (Instruction.hash c7Instr ++ le4 c7Instr.signatures.length
          ++ (c7Instr.signatures.map fun sig => le4 sig.length ++ sig).flatten ++ utf8Bytes "")
    ∧ Instruction.deriveId c7Instr "" = Instruction.deriveId c7Instr ""
    ∧ Instruction.deriveId c7Instr "" ≠ Instruction.deriveId c7Instr "x" :=
  c7_derive_id c7Instr c7Instr "" "" rfl rfl

/-! ## C2: the first forward link must originate at the genesis -/

/-- C2: with the latest-block hash and trie-root checks passing, `verify`
returns the dedicated `firstLinkNotGenesis` error whenever `links[0].to`
differs from the genesis hash, and can only succeed when they agree. -/
theorem c2_first_link_must_be_genesis (env : VerifyEnv) (p : Proof) (genesisID : List Nat)
    (l0 : ForwardLink) (rest : List ForwardLink) (hlinks : p.links = l0 :: rest)
    (hhash : env.computeHash p.latest = p.latest.hash)
    (hroot : p.inclusionproof.hashInterior 0 = env.trieRootOf p.latest.data) :
    (l0.to_ ≠ genesisID → Proof.verify env p genesisID = some .firstLinkNotGenesis)
    ∧ (Proof.verify env p genesisID = none → l0.to_ = genesisID) := by
  unfold Proof.verify
  rw [hlinks, hhash, hroot]
  simp only [ne_eq, not_true_eq_false, if_false]
  constructor
  · intro h
    simp [h]
  · intro h
    by_contra hne
    simp [hne] at h

/-- C2 witness: a concrete proof whose first link points at `[9]`, checked
against genesis `[7]`. -/
theorem c2_witness : Proof.verify c2Env c2Proof [7] = some .firstLinkNotGenesis :=
  (c2_first_link_must_be_genesis c2Env c2Proof [7] ⟨[], [9], none, []⟩ [] rfl rfl rfl).1
    (by decide)

/-! ## C5: the combined transaction hash and `signWith` -/

/-- C5: the transaction hash is sha256 of the concatenated per-instruction
hashes; `signWith` errors exactly on a group-count mismatch, and otherwise
replaces every instruction's signature list with its group's signatures
over the single combined transaction hash, leaving all other fields
untouched. -/
theorem c5_combined_hash_signing (tx : ClientTransaction) (signers : List (List Signer)) :
    ClientTransaction.hash tx = sha256 ((tx.instructions.map Instruction.hash).flatten)
    ∧ (signers.length ≠ tx.instructions.length →
        tx.signWith signers = .error "need same number of signers as instructions")
    ∧ (signers.length = tx.instructions.length →
        ∃ tx2, tx.signWith signers = .ok tx2
          ∧ tx2.instructions.length = tx.instructions.length
          ∧ ∀ i (hi : i < tx2.instructions.length),
              (tx2.instructions.get ⟨i, hi⟩).signatures
                  = (signers.getD i []).map (fun s => s.sign (ClientTransaction.hash tx))
              ∧ (tx2.instructions.get ⟨i, hi⟩).instanceID
                  = (tx.instructions.getD i default).instanceID
              ∧ (tx2.instructions.get ⟨i, hi⟩).body = (tx.instructions.getD i default).body
              ∧ (tx2.instructions.get ⟨i, hi⟩).signerCounter
                  = (tx.instructions.getD i default).signerCounter
              ∧ (tx2.instructions.get ⟨i, hi⟩).signerIdentities
                  = (tx.instructions.getD i default).signerIdentities) := by
  refine ⟨rfl, ?_, ?_⟩
  · intro h
    unfold ClientTransaction.signWith
    simp [h]
  · intro h
    refine ⟨⟨List.zipWith (fun instr group => instr.signWith tx.hash group)
      tx.instructions signers⟩, ?_, ?_, ?_⟩
    · unfold ClientTransaction.signWith
      simp [h]
    · simp [List.length_zipWith, h]
    · intro i hi
      simp only [List.length_zipWith, h, Nat.min_self] at hi
      have hs : i < signers.length := by omega
      simp [List.get_eq_getElem, List.getElem_zipWith, Instruction.signWith,
        List.getD_eq_getElem, hi, hs]

/-- C5 witness: a two-instruction transaction signed by one signer per
instruction; both signature lists are over the combined hash, which differs
from the first instruction's own hash. -/
theorem c5_witness :
    ClientTransaction.hash c5Tx = sha256 ((c5Tx.instructions.map Instruction.hash).flatten)
    ∧ (∃ tx2, c5Tx.signWith [[c5Signer], [c5Signer]] = .ok tx2
        ∧ tx2.instructions.length = c5Tx.instructions.length
        ∧ ∀ i (hi : i < tx2.instructions.length),
            (tx2.instructions.get ⟨i, hi⟩).signatures
                = (([[c5Signer], [c5Signer]].getD i []).map
                    (fun s => s.sign (ClientTransaction.hash c5Tx)))
            ∧ (tx2.instructions.get ⟨i, hi⟩).instanceID
                = (c5Tx.instructions.getD i default).instanceID
            ∧ (tx2.instructions.get ⟨i, hi⟩).body = (c5Tx.instructions.getD i default).body
            ∧ (tx2.instructions.get ⟨i, hi⟩).signerCounter
                = (c5Tx.instructions.getD i default).signerCounter
            ∧ (tx2.instructions.get ⟨i, hi⟩).signerIdentities
                = (c5Tx.instructions.getD i default).signerIdentities)
    ∧ c5Signer.sign (ClientTransaction.hash c5Tx) ≠ c5Signer.sign (Instruction.hash c5I0) := by
  have h := c5_combined_hash_signing c5Tx [[c5Signer], [c5Signer]]
  exact ⟨h.1, h.2.2 rfl, by decide⟩

/-! ## C4: the link walk and mid-chain roster rotation -/

/-- The loop of `verify` succeeds exactly when every link's signature
verifies against the roster in effect for it (base keys updated by the
`newRoster` of strictly earlier links), the `from`/`to` chain is connected,
and the walk ends at the latest hash. -/
lemma walkLinks_none_iff (env : VerifyEnv) (latestHash : List Nat) :
    ∀ (links : List ForwardLink) (publics : List (List Nat)) (prev : List Nat),
      walkLinks env latestHash publics prev links = none ↔
        ((∀ i : Fin links.length,
            env.linkVerify (links.get i) (effPublics env publics links i.val) = true)
         ∧ chainOkB prev links = true ∧ lastTo prev links = latestHash) := by
  intro links
  induction links with
  | nil =>
      intro publics prev
      constructor
      · intro h
        have hp : prev = latestHash := by
          by_contra hne
          simp [walkLinks, hne] at h
        exact ⟨fun i => absurd i.isLt (by simp), rfl, by simpa [lastTo] using hp⟩
      · rintro ⟨-, -, hlast⟩
        simp only [lastTo] at hlast
        simp [walkLinks, hlast]
  | cons link rest ih =>
      intro publics prev
      by_cases hv : env.linkVerify link publics
      · by_cases hf : link.from_ = prev
        · rw [show walkLinks env latestHash publics prev (link :: rest)
                = walkLinks env latestHash (rosterUpdate env publics link) link.to_ rest by
              simp [walkLinks, hv, hf]]
          rw [ih]
          constructor
          · rintro ⟨hver, hchain, hlast⟩
            refine ⟨?_, ?_, hlast⟩
            · simp only [List.length_cons]
              rw [Fin.forall_fin_succ]
              exact ⟨by simpa [effPublics] using hv,
                fun i => by simpa [effPublics, Fin.val_succ] using hver i⟩
            · simp [chainOkB, hf, hchain]
          · rintro ⟨hver, hchain, hlast⟩
            simp only [List.length_cons] at hver
            rw [Fin.forall_fin_succ] at hver
            refine ⟨fun i => by simpa [effPublics, Fin.val_succ] using hver.2 i, ?_, hlast⟩
            simpa [chainOkB, hf] using hchain
        · constructor
          · intro h
            simp [walkLinks, hv, hf] at h
          · rintro ⟨-, hchain, -⟩
            simp [chainOkB, hf] at hchain
      · constructor
        · intro h
          simp [walkLinks, hv] at h
        · rintro ⟨hver, -, -⟩
          exact absurd (hver ⟨0, by simp⟩) hv

/-- C4: under passing latest-hash, trie-root and genesis checks, `verify`
succeeds iff every link of `links[1..]` verifies against the roster in
effect for it, the chain is connected from `links[0].to`, and it ends at
the latest hash.  A link's own check uses the keys from before its own
rotation (`effPublics _ _ 0` is the unrotated set), while the very next
link is checked against the rotated set. -/
theorem c4_links_checked_against_rotating_roster (env : VerifyEnv) (p : Proof)
    (genesisID : List Nat) (l0 : ForwardLink) (rest : List ForwardLink)
    (hlinks : p.links = l0 :: rest)
    (hhash : env.computeHash p.latest = p.latest.hash)
    (hroot : p.inclusionproof.hashInterior 0 = env.trieRootOf p.latest.data)
    (hgen : l0.to_ = genesisID) :
    (Proof.verify env p genesisID = none ↔
      ((∀ i : Fin rest.length,
          env.linkVerify (rest.get i)
            (effPublics env (env.servicePublics p.latest.roster) rest i.val) = true)
       ∧ chainOkB l0.to_ rest = true
       ∧ lastTo l0.to_ rest = p.latest.hash))
    ∧ (∀ (publics : List (List Nat)) (link : ForwardLink) (rest2 : List ForwardLink),
        effPublics env publics (link :: rest2) 0 = publics)
    ∧ (∀ (publics : List (List Nat)) (link : ForwardLink) (rest2 : List ForwardLink) (i : Nat),
        effPublics env publics (link :: rest2) (i + 1)
          = effPublics env (rosterUpdate env publics link) rest2 i) := by
  refine ⟨?_, fun _ _ _ => rfl, fun _ _ _ _ => rfl⟩
  unfold Proof.verify
  rw [hlinks, hhash, hroot]
  simp only [ne_eq, not_true_eq_false, if_false]
  rw [if_neg (by simp [hgen])]
  exact walkLinks_none_iff env p.latest.hash rest (env.servicePublics p.latest.roster) l0.to_

/-- C4 witness: a three-link fixture whose middle link rotates the roster
from `⟨0⟩` to `⟨1⟩`; `verify` succeeds, and the last link's signature does
NOT verify against the unrotated keys — the rotated set really is used. -/
theorem c4_witness :
    Proof.verify c4Env c4Proof [7] = none
    ∧ c4Env.linkVerify c4L2 (c4Env.servicePublics c4Block.roster) = false := by
  have h := c4_links_checked_against_rotating_roster c4Env c4Proof [7] c4L0 [c4L1, c4L2]
    rfl rfl rfl rfl
  exact ⟨h.1.mpr ⟨by decide, by decide, by decide⟩, by decide⟩

/-! ## C3: the trie descent of `exists` -/

lemma round_length (st : List Nat) (kw : Nat × Nat) : (round st kw).length = st.length := by
  unfold round
  split <;> simp

lemma foldl_round_length (l : List (Nat × Nat)) :
    ∀ st : List Nat, (l.foldl round st).length = st.length := by
  induction l with
  | nil => intro st; rfl
  | cons x xs ih => intro st; rw [List.foldl_cons, ih, round_length]

lemma compress_length (st block : List Nat) (h : st.length = 8) :
    (compress st block).length = 8 := by
  unfold compress
  simp [List.length_zip, foldl_round_length, h]

lemma foldl_compress_length (blocks : List (List Nat)) :
    ∀ st : List Nat, st.length = 8 → (blocks.foldl compress st).length = 8 := by
  induction blocks with
  | nil => intro st h; exact h
  | cons b bs ih => intro st h; rw [List.foldl_cons]; exact ih _ (compress_length st b h)

lemma flatten_map_be4_length (l : List Nat) : ((l.map be4).flatten).length = 4 * l.length := by
  induction l with
  | nil => rfl
  | cons x xs ih => simp [be4] at ih ⊢; omega

lemma sha256_length (msg : List Nat) : (sha256 msg).length = 32 := by
  unfold sha256
  rw [flatten_map_be4_length, foldl_compress_length _ IV256 rfl]

lemma be4_mem_lt {b n : Nat} (h : b ∈ be4 n) : b < 256 := by
  simp [be4] at h
  rcases h with h | h | h | h <;> omega

lemma sha256_byte_lt (msg : List Nat) : ∀ b ∈ sha256 msg, b < 256 := by
  intro b hb
  unfold sha256 at hb
  rw [List.mem_flatten] at hb
  obtain ⟨l, hl, hbl⟩ := hb
  rw [List.mem_map] at hl
  obtain ⟨x, -, rfl⟩ := hl
  exact be4_mem_lt hbl

/-- The source's MSB-first bit extraction agrees with `Nat.testBit` on bytes. -/
lemma byte_bit_char : ∀ b, b < 256 → ∀ j, j < 8 →
    ((((b <<< j) &&& 128) > 0) ↔ Nat.testBit b (7 - j)) := by decide

lemma getD_map_range {α : Type} (f : Nat → α) {n i : Nat} (d : α) (h : i < n) :
    ((List.range n).map f).getD i d = f i := by
  rw [List.getD_eq_getElem _ _ (by simpa using h)]
  simp

lemma hashToBits_length (key : List Nat) : (hashToBits key).length = 256 := by
  unfold hashToBits
  simp [sha256_length]

lemma hashToBits_getD (key : List Nat) {i : Nat} (h : i < 256) :
    (hashToBits key).getD i false
      = Nat.testBit ((sha256 key).getD (i / 8) 0) (7 - i % 8) := by
  unfold hashToBits
  rw [getD_map_range _ false (by rw [sha256_length]; exact h)]
  have hb : (sha256 key).getD (i / 8) 0 < 256 := by
    have h32 : i / 8 < (sha256 key).length := by rw [sha256_length]; omega
    rw [List.getD_eq_getElem _ _ h32]
    exact sha256_byte_lt key _ (List.getElem_mem h32)
  have hsh : i >>> 3 = i / 8 := by
    rw [Nat.shiftRight_eq_div_pow]
  rw [hsh]
  have hiff := byte_bit_char _ hb (i % 8) (Nat.mod_lt _ (by norm_num))
  rcases Bool.eq_false_or_eq_true
      (Nat.testBit ((sha256 key).getD (i / 8) 0) (7 - i % 8)) with hbt | hbt
  all_goals rw [hbt]
  · rw [decide_eq_true_eq]
    exact hiff.mpr hbt
  · rw [decide_eq_false_iff_not]
    intro hp
    rw [hiff.mp hp] at hbt
    exact Bool.noConfusion hbt

lemma existsWalk_ok (ip : InclusionProof) (bits : List Bool) :
    ∀ m k, k + m = ip.interiors.length →
      (∀ j, k ≤ j → j < ip.interiors.length → expectedAt ip bits j = ip.hashInterior j) →
      Proof.existsWalk bits (ip.interiors.drop k) k (expectedAt ip bits k)
        = .ok (expectedAt ip bits ip.interiors.length) := by
  intro m
  induction m with
  | zero =>
      intro k hk _
      have hke : k = ip.interiors.length := by omega
      subst hke
      rw [List.drop_length]
      rfl
  | succ m ih =>
      intro k hk h
      have hklt : k < ip.interiors.length := by omega
      rw [List.drop_eq_getElem_cons hklt]
      have hget : ip.interiors.getD k ⟨[], []⟩ = ip.interiors[k] :=
        List.getD_eq_getElem _ _ hklt
      have hhead : expectedAt ip bits k
          = sha256 (ip.interiors[k].left ++ ip.interiors[k].right) := by
        rw [h k le_rfl hklt]
        unfold InclusionProof.hashInterior
        rw [hget]
      rw [Proof.existsWalk, if_neg (by simp [hhead])]
      have hnext : expectedAt ip bits (k + 1)
          = (if bits.getD k false then ip.interiors[k].left else ip.interiors[k].right) := by
        simp only [expectedAt, hget]
      rw [← hnext]
      exact ih (k + 1) (by omega) (fun j hj1 hj2 => h j (by omega) hj2)

lemma existsWalk_err (ip : InclusionProof) (bits : List Bool) :
    ∀ m k, k + m = ip.interiors.length →
      (∃ j, k ≤ j ∧ j < ip.interiors.length ∧ expectedAt ip bits j ≠ ip.hashInterior j) →
      Proof.existsWalk bits (ip.interiors.drop k) k (expectedAt ip bits k)
        = .error .invalidInterior := by
  intro m
  induction m with
  | zero =>
      intro k hk hex
      obtain ⟨j, hj1, hj2, -⟩ := hex
      omega
  | succ m ih =>
      intro k hk hex
      obtain ⟨j, hj1, hj2, hne⟩ := hex
      have hklt : k < ip.interiors.length := by omega
      rw [List.drop_eq_getElem_cons hklt]
      have hget : ip.interiors.getD k ⟨[], []⟩ = ip.interiors[k] :=
        List.getD_eq_getElem _ _ hklt
      by_cases hhead : expectedAt ip bits k = ip.hashInterior k
      · have hhead2 : expectedAt ip bits k
            = sha256 (ip.interiors[k].left ++ ip.interiors[k].right) := by
          rw [hhead]
          unfold InclusionProof.hashInterior
          rw [hget]
        rw [Proof.existsWalk, if_neg (by simp [hhead2])]
        have hnext : expectedAt ip bits (k + 1)
            = (if bits.getD k false then ip.interiors[k].left else ip.interiors[k].right) := by
          simp only [expectedAt, hget]
        rw [← hnext]
        refine ih (k + 1) (by omega) ⟨j, ?_, hj2, hne⟩
        have : j ≠ k := fun e => hne (by rw [e]; exact hhead)
        omega
      · have hhead2 : expectedAt ip bits k
            ≠ sha256 (ip.interiors[k].left ++ ip.interiors[k].right) := by
          intro e
          apply hhead
          rw [e]
          unfold InclusionProof.hashInterior
          rw [hget]
        rw [Proof.existsWalk, if_pos hhead2]

/-- The body of `exists` after its two nil-guards: the interior walk followed by the
terminal dispatch. -/
lemma exists?_eq (p : Proof) (key : List Nat)
    (hkl : ¬ key.length = 0) (hil : ¬ p.inclusionproof.interiors.length = 0) :
    Proof.exists? p key =
      match Proof.existsWalk (hashToBits key) p.inclusionproof.interiors 0
          (p.inclusionproof.hashInterior 0) with
      | .error e => .error e
      | .ok expected =>
        if expected = p.inclusionproof.hashLeaf then
          if lodashDifference ((hashToBits key).take p.inclusionproof.interiors.length)
              p.inclusionproof.leaf.prefixBits ≠ [] then
            .error .invalidLeafPrefix
          else .ok (p.inclusionproof.leaf.key == key)
        else if expected = p.inclusionproof.hashEmpty then
          if lodashDifference ((hashToBits key).take p.inclusionproof.interiors.length)
              p.inclusionproof.empty.prefixBits ≠ [] then
            .error .invalidEmptyPrefix
          else .ok false
        else .error .noMatchingNode := by
  unfold Proof.exists?
  rw [if_neg hkl, if_neg hil]

/-- C3: `exists(key)` walks the 256 bits of `sha256(key)` (MSB of byte 0
first), starting from the hash of interior node 0, checking the expected
hash against each interior node and descending left on a set bit, right
otherwise; a corrupted interior chain throws, and with a valid chain the
walk's terminal value dispatches on the leaf hash (returning whether the
leaf's key equals the queried key), the empty hash (returning false), or
neither (throwing: no terminating node). -/
theorem c3_exists_trie_walk (p : Proof) (key : List Nat)
    (hkey : key ≠ []) (hint : p.inclusionproof.interiors ≠ []) :
    ((hashToBits key).length = 256
      ∧ ∀ i, i < 256 → (hashToBits key).getD i false
          = Nat.testBit ((sha256 key).getD (i / 8) 0) (7 - i % 8))
    ∧ expectedAt p.inclusionproof (hashToBits key) 0 = p.inclusionproof.hashInterior 0
    ∧ (∀ i, i < p.inclusionproof.interiors.length →
        expectedAt p.inclusionproof (hashToBits key) (i + 1)
          = (if (hashToBits key).getD i false
             then (p.inclusionproof.interiors.getD i ⟨[], []⟩).left
             else (p.inclusionproof.interiors.getD i ⟨[], []⟩).right))
    ∧ ((∃ j, j < p.inclusionproof.interiors.length
          ∧ expectedAt p.inclusionproof (hashToBits key) j ≠ p.inclusionproof.hashInterior j) →
        Proof.exists? p key = .error .invalidInterior)
    ∧ ((∀ j, j < p.inclusionproof.interiors.length →
          expectedAt p.inclusionproof (hashToBits key) j = p.inclusionproof.hashInterior j) →
        (expectedAt p.inclusionproof (hashToBits key) p.inclusionproof.interiors.length
            = p.inclusionproof.hashLeaf →
          (lodashDifference ((hashToBits key).take p.inclusionproof.interiors.length)
              p.inclusionproof.leaf.prefixBits = [] →
            Proof.exists? p key = .ok (p.inclusionproof.leaf.key == key))
          ∧ (lodashDifference ((hashToBits key).take p.inclusionproof.interiors.length)
              p.inclusionproof.leaf.prefixBits ≠ [] →
            Proof.exists? p key = .error .invalidLeafPrefix))
        ∧ (expectedAt p.inclusionproof (hashToBits key) p.inclusionproof.interiors.length
            ≠ p.inclusionproof.hashLeaf →
          expectedAt p.inclusionproof (hashToBits key) p.inclusionproof.interiors.length
            = p.inclusionproof.hashEmpty →
          (lodashDifference ((hashToBits key).take p.inclusionproof.interiors.length)
              p.inclusionproof.empty.prefixBits = [] →
            Proof.exists? p key = .ok false)
          ∧ (lodashDifference ((hashToBits key).take p.inclusionproof.interiors.length)
              p.inclusionproof.empty.prefixBits ≠ [] →
            Proof.exists? p key = .error .invalidEmptyPrefix))
        ∧ (expectedAt p.inclusionproof (hashToBits key) p.inclusionproof.interiors.length
            ≠ p.inclusionproof.hashLeaf →
          expectedAt p.inclusionproof (hashToBits key) p.inclusionproof.interiors.length
            ≠ p.inclusionproof.hashEmpty →
          Proof.exists? p key = .error .noMatchingNode)) := by
  have hkl : ¬ key.length = 0 := by simpa [List.length_eq_zero] using hkey
  have hil : ¬ p.inclusionproof.interiors.length = 0 := by
    simpa [List.length_eq_zero] using hint
  refine ⟨⟨hashToBits_length key, fun i hi => hashToBits_getD key hi⟩, rfl,
    fun i hi => rfl, ?_, ?_⟩
  · rintro ⟨j, hj, hne⟩
    have hw : Proof.existsWalk (hashToBits key) p.inclusionproof.interiors 0
        (p.inclusionproof.hashInterior 0) = .error .invalidInterior := by
      have h0 := existsWalk_err p.inclusionproof (hashToBits key)
        p.inclusionproof.interiors.length 0 (by omega) ⟨j, Nat.zero_le _, hj, hne⟩
      rw [List.drop_zero] at h0
      exact h0
    rw [exists?_eq p key hkl hil, hw]
  · intro hvalid
    have hw : Proof.existsWalk (hashToBits key) p.inclusionproof.interiors 0
        (p.inclusionproof.hashInterior 0)
          = .ok (expectedAt p.inclusionproof (hashToBits key)
              p.inclusionproof.interiors.length) := by
      have h0 := existsWalk_ok p.inclusionproof (hashToBits key)
        p.inclusionproof.interiors.length 0 (by omega) (fun j _ hj => hvalid j hj)
      rw [List.drop_zero] at h0
      exact h0
    rw [exists?_eq p key hkl hil, hw]
    dsimp only
    refine ⟨fun hleaf => ⟨fun hd => ?_, fun hd => ?_⟩,
      fun hnl he => ⟨fun hd => ?_, fun hd => ?_⟩, fun hnl hne2 => ?_⟩
    · rw [if_pos hleaf, if_neg (by simp [hd])]
    · rw [if_pos hleaf, if_pos hd]
    · rw [if_neg hnl, if_pos he, if_neg (by simp [hd])]
    · rw [if_neg hnl, if_pos he, if_pos hd]
    · rw [if_neg hnl, if_neg hne2]

/-- C3 witness: the well-formed depth-2 fixture proves presence of `[2]`. -/
theorem c3_witness : Proof.exists? c3Proof [2] = .ok true := by
  have h := c3_exists_trie_walk c3Proof [2] (by decide) (by decide)
  have h5 := h.2.2.2.2 (by decide)
  have h6 := (h5.1 (by decide)).1 (by decide)
  rw [h6]
  decide

/-! ## C8: counter fetching and assignment -/

lemma occStr_cons (k : String) (s : IIdentity) (rest : List IIdentity) :
    occStr k (s :: rest) = (if s.str = k then 1 else 0) + occStr k rest := by
  by_cases h : s.str = k
  · simp [occStr, List.filter_cons, h]
    omega
  · simp [occStr, List.filter_cons, h]

lemma occStr_append (k : String) (a b : List IIdentity) :
    occStr k (a ++ b) = occStr k a + occStr k b := by
  simp [occStr, List.filter_append]

lemma mapGet_cons_ne (p : String × Nat) (rest : CounterMap) (k' : String)
    (h : ¬ p.1 = k') : mapGet (p :: rest) k' = mapGet rest k' := by
  have h2 : (p.1 == k') = false := by simpa [beq_iff_eq] using h
  simp [mapGet, List.find?, h2]

lemma mapGet_mapSet (m : CounterMap) (k k' : String) (v : Nat) :
    mapGet (mapSet m k v) k' = if k' = k then v else mapGet m k' := by
  induction m with
  | nil =>
      by_cases h : k' = k
      · subst h
        simp [mapSet, mapGet, List.find?]
      · have h1 : (k == k') = false := by
          simp [beq_iff_eq]
          exact fun e => h e.symm
        simp [mapSet, mapGet, List.find?, h1, h]
  | cons p rest ih =>
      by_cases hp : p.1 = k
      · by_cases h : k' = k
        · subst h
          simp [mapSet, hp, mapGet, List.find?]
        · have h1 : (k == k') = false := by
            simp [beq_iff_eq]
            exact fun e => h e.symm
          have hL : mapGet (mapSet (p :: rest) k v) k' = mapGet rest k' := by
            simp [mapSet, hp, mapGet, List.find?, h1]
          have hR : mapGet (p :: rest) k' = mapGet rest k' :=
            mapGet_cons_ne p rest k' (fun e => h (e ▸ hp.symm ▸ rfl))
          rw [hL, if_neg h, hR]
      · by_cases hpk : p.1 = k'
        · have h : ¬ k' = k := fun e => hp (hpk.trans e)
          have hb : (p.1 == k') = true := by simpa [beq_iff_eq] using hpk
          have hL : mapGet (mapSet (p :: rest) k v) k' = p.2 := by
            simp [mapSet, if_neg hp, mapGet, List.find?, hb]
          have hR : mapGet (p :: rest) k' = p.2 := by
            simp [mapGet, List.find?, hb]
          rw [hL, if_neg h, hR]
        · have hL : mapGet (mapSet (p :: rest) k v) k'
              = mapGet (mapSet rest k v) k' := by
            rw [show mapSet (p :: rest) k v = p :: mapSet rest k v by
              simp [mapSet, hp]]
            exact mapGet_cons_ne p _ k' hpk
          rw [hL, ih, mapGet_cons_ne p rest k' hpk]

lemma bumpAll_append (m : CounterMap) (a b : List IIdentity) :
    bumpAll m (a ++ b) = bumpAll (bumpAll m a) b := by
  simp [bumpAll, List.foldl_append]

lemma mapGet_bumpAll (l : List IIdentity) :
    ∀ (m : CounterMap) (k : String), mapGet (bumpAll m l) k = mapGet m k + occStr k l := by
  induction l with
  | nil => intro m k; simp [bumpAll, occStr]
  | cons s rest ih =>
      intro m k
      have hstep : bumpAll m (s :: rest)
          = bumpAll (mapSet m s.str (mapGet m s.str + 1)) rest := rfl
      rw [hstep, ih, mapGet_mapSet, occStr_cons]
      by_cases hk : k = s.str
      · simp [hk]
        omega
      · have : ¬ (s.str = k) := fun e => hk e.symm
        simp [hk, this]

lemma assignOne_spec (group : List IIdentity) :
    ∀ (m : CounterMap) (instr : Instruction),
      assignOne m instr group
        = ({ instr with
              signerIdentities := instr.signerIdentities ++ group.map (fun s => s.wrapper),
              signerCounter := instr.signerCounter ++ countersFrom m group },
           bumpAll m group) := by
  induction group with
  | nil => intro m instr; simp [assignOne, countersFrom, bumpAll]
  | cons s rest ih =>
      intro m instr
      have hstep : assignOne m instr (s :: rest)
          = assignOne (mapSet m s.str (mapGet m s.str + 1))
              { instr with
                signerIdentities := instr.signerIdentities ++ [s.wrapper],
                signerCounter := instr.signerCounter ++ [mapGet m s.str] } rest := rfl
      rw [hstep, ih]
      simp [countersFrom, bumpAll]

lemma countersFrom_length (group : List IIdentity) :
    ∀ m : CounterMap, (countersFrom m group).length = group.length := by
  induction group with
  | nil => intro m; rfl
  | cons s rest ih => intro m; simp [countersFrom, ih]

lemma countersFrom_getD (group : List IIdentity) :
    ∀ (m : CounterMap) (j : Nat), j < group.length →
      (countersFrom m group).getD j 0
        = mapGet m ((group.getD j default).str)
          + occStr ((group.getD j default).str) (group.take j) := by
  induction group with
  | nil => intro m j hj; simp at hj
  | cons s rest ih =>
      intro m j hj
      cases j with
      | zero => simp [countersFrom, occStr]
      | succ j =>
          have hj' : j < rest.length := by simpa using hj
          have hstep : countersFrom m (s :: rest)
              = mapGet m s.str
                :: countersFrom (mapSet m s.str (mapGet m s.str + 1)) rest := rfl
          rw [hstep]
          simp only [List.getD_cons_succ, List.take_succ_cons]
          rw [ih _ j hj', mapGet_mapSet, occStr_cons]
          by_cases ht : (rest.getD j default).str = s.str
          · rw [ht, if_pos rfl, if_pos rfl]
            omega
          · rw [if_neg ht, if_neg (fun e => ht e.symm)]
            omega

lemma assignAll_length (instrs : List Instruction) :
    ∀ (groups : List (List IIdentity)) (m : CounterMap),
      (assignAll m instrs groups).1.length = instrs.length := by
  induction instrs with
  | nil => intro groups m; cases groups <;> rfl
  | cons instr irest ih =>
      intro groups m
      cases groups with
      | nil => rfl
      | cons g grest => simp [assignAll, ih]

lemma assignAll_getD (instrs : List Instruction) :
    ∀ (groups : List (List IIdentity)) (m : CounterMap), groups.length = instrs.length →
      ∀ i, i < instrs.length →
        (assignAll m instrs groups).1.getD i default
          = (assignOne (bumpAll m ((groups.take i).flatten)) (instrs.getD i default)
              (groups.getD i [])).1 := by
  induction instrs with
  | nil => intro groups m hlen i hi; simp at hi
  | cons instr irest ih =>
      intro groups m hlen i hi
      cases groups with
      | nil => simp at hlen
      | cons g grest =>
          cases i with
          | zero =>
              simp only [assignAll, List.getD_cons_zero, List.take_zero, List.flatten_nil]
              rfl
          | succ i =>
              have hlen' : grest.length = irest.length := by simpa using hlen
              have hi' : i < irest.length := by simpa using hi
              have hstep : (assignAll m (instr :: irest) (g :: grest)).1
                  = (assignOne m instr g).1
                    :: (assignAll (assignOne m instr g).2 irest grest).1 := rfl
              rw [hstep]
              simp only [List.getD_cons_succ, List.take_succ_cons]
              rw [ih grest (assignOne m instr g).2 hlen' i hi',
                show (assignOne m instr g).2 = bumpAll m g by rw [assignOne_spec],
                List.flatten_cons, bumpAll_append]

/-- C8: with matching group and instruction counts on a non-empty
transaction whose instructions start with empty identity/counter lists,
`updateCounters` performs exactly one fetch, over the deduplicated identity
list, and assigns position-wise: instruction `i`'s identity list is its
group's wrappers, and the counter at position `j` is the fetched base
counter of that identity plus the number of earlier occurrences of the same
identity in the transaction — so a twice-signing identity gets strictly
increasing consecutive counters with no second round trip. -/
theorem c8_counter_batching (fetch : List IIdentity → List Nat) (tx : ClientTransaction)
    (signers : List (List IIdentity))
    (hne : tx.instructions ≠ [])
    (hlen : signers.length = tx.instructions.length)
    (hinit : ∀ ins ∈ tx.instructions, ins.signerIdentities = [] ∧ ins.signerCounter = []) :
    (ClientTransaction.updateCounters fetch tx signers).2 = [uniqOf signers]
    ∧ ∃ tx2, (ClientTransaction.updateCounters fetch tx signers).1 = .ok tx2
        ∧ tx2.instructions.length = tx.instructions.length
        ∧ ∀ i, i < tx.instructions.length →
            (tx2.instructions.getD i default).signerIdentities
                = (signers.getD i []).map (fun s => s.wrapper)
            ∧ (tx2.instructions.getD i default).signerCounter.length
                = (signers.getD i []).length
            ∧ ∀ j, j < (signers.getD i []).length →
                (tx2.instructions.getD i default).signerCounter.getD j 0
                  = mapGet (baseMap fetch signers) ((signers.getD i []).getD j default).str
                    + occStr ((signers.getD i []).getD j default).str (priorOcc signers i j) := by
  have hne' : ¬ tx.instructions.length = 0 := by simpa [List.length_eq_zero] using hne
  have heq : ClientTransaction.updateCounters fetch tx signers
      = (.ok ⟨(assignAll (baseMap fetch signers) tx.instructions signers).1⟩,
         [uniqOf signers]) := by
    unfold ClientTransaction.updateCounters
    rw [if_neg hne', if_neg (by simp [hlen])]
    rfl
  rw [heq]
  refine ⟨rfl, ⟨⟨(assignAll (baseMap fetch signers) tx.instructions signers).1⟩, rfl,
    assignAll_length tx.instructions signers (baseMap fetch signers), ?_⟩⟩
  intro i hi
  have hget := assignAll_getD tx.instructions signers (baseMap fetch signers) hlen i hi
  have hmem : tx.instructions.getD i default ∈ tx.instructions := by
    rw [List.getD_eq_getElem _ _ hi]
    exact List.getElem_mem hi
  obtain ⟨hid0, hc0⟩ := hinit _ hmem
  rw [hget, assignOne_spec]
  dsimp only
  rw [hid0, hc0]
  refine ⟨by rw [List.nil_append], by rw [List.nil_append, countersFrom_length], ?_⟩
  intro j hj
  rw [List.nil_append, countersFrom_getD _ _ j hj, mapGet_bumpAll]
  unfold priorOcc
  rw [occStr_append]
  omega

/-- A list of length one is the singleton of its first element. -/
lemma list_len_one_eq {l : List Nat} (h : l.length = 1) : l = [l.getD 0 0] := by
  cases l with
  | nil => simp at h
  | cons x rest =>
      cases rest with
      | nil => rfl
      | cons y r2 => simp at h

/-- C8 witness: signer sets `{A}, {A}, {B}` with base counters `10, 20`:
one fetch over `[A, B]`, counters `10, 11` for A's two instructions and
`20` for B's. -/
theorem c8_witness :
    (ClientTransaction.updateCounters c8Fetch c8Tx c8Signers).2 = [[idA, idB]]
    ∧ ∃ tx2, (ClientTransaction.updateCounters c8Fetch c8Tx c8Signers).1 = .ok tx2
        ∧ (tx2.instructions.getD 0 default).signerCounter = [10]
        ∧ (tx2.instructions.getD 1 default).signerCounter = [11]
        ∧ (tx2.instructions.getD 2 default).signerCounter = [20] := by
  have h := c8_counter_batching c8Fetch c8Tx c8Signers (by decide) (by decide) (by decide)
  refine ⟨h.1.trans (by decide), ?_⟩
  obtain ⟨tx2, hok, hlen2, hmain⟩ := h.2
  have h0 := hmain 0 (by decide)
  have h1 := hmain 1 (by decide)
  have h2 := hmain 2 (by decide)
  refine ⟨tx2, hok, ?_, ?_, ?_⟩
  · have hv : (tx2.instructions.getD 0 default).signerCounter.getD 0 0 = 10 :=
      (h0.2.2 0 (by decide)).trans (by decide)
    rw [list_len_one_eq (h0.2.1.trans (by decide)), hv]
  · have hv : (tx2.instructions.getD 1 default).signerCounter.getD 0 0 = 11 :=
      (h1.2.2 0 (by decide)).trans (by decide)
    rw [list_len_one_eq (h1.2.1.trans (by decide)), hv]
  · have hv : (tx2.instructions.getD 2 default).signerCounter.getD 0 0 = 20 :=
      (h2.2.2 0 (by decide)).trans (by decide)
    rw [list_len_one_eq (h2.2.1.trans (by decide)), hv]

/-! ## C10: single-group replication in `updateCountersAndSign` -/

lemma getD_zipWith {α β γ : Type} [Inhabited γ] (f : α → β → γ) (as : List α) (bs : List β)
    (i : Nat) (d1 : α) (d2 : β) (ha : i < as.length) (hb : i < bs.length) :
    (List.zipWith f as bs).getD i default = f (as.getD i d1) (bs.getD i d2) := by
  rw [List.getD_eq_getElem _ _ (by rw [List.length_zipWith]; omega),
    List.getElem_zipWith, List.getD_eq_getElem _ _ ha, List.getD_eq_getElem _ _ hb]

/-- C10: with exactly one signer group and more than one instruction,
`updateCountersAndSign` replicates the group to every instruction and
succeeds — every instruction ends up signed by the same group over one
common hash — whereas any other group count that differs from the
instruction count is rejected by the length check. -/
theorem c10_single_group_replication (fetch : List IIdentity → List Nat)
    (tx : ClientTransaction) (g : List Signer)
    (h2 : 1 < tx.instructions.length) :
    (∃ tx2, (ClientTransaction.updateCountersAndSign fetch tx [g]).1 = .ok tx2
       ∧ tx2.instructions.length = tx.instructions.length
       ∧ ∃ ctxHash, ∀ i, i < tx2.instructions.length →
           (tx2.instructions.getD i default).signatures = g.map (fun s => s.sign ctxHash))
    ∧ (∀ signers : List (List Signer), signers.length ≠ 1 →
        signers.length ≠ tx.instructions.length →
        (ClientTransaction.updateCountersAndSign fetch tx signers).1
          = .error "length of signers and instructions do not match") := by
  have hn0 : ¬ tx.instructions.length = 0 := by omega
  constructor
  · have hs2len : ([g] ++ List.replicate (tx.instructions.length - 1) g).length
        = tx.instructions.length := by
      simp
      omega
    have hmid : ClientTransaction.updateCounters fetch tx
        (([g] ++ List.replicate (tx.instructions.length - 1) g).map fun gr => gr.map Signer.id)
        = (.ok ⟨(assignAll
            (baseMap fetch (([g] ++ List.replicate (tx.instructions.length - 1) g).map
              fun gr => gr.map Signer.id))
            tx.instructions
            (([g] ++ List.replicate (tx.instructions.length - 1) g).map
              fun gr => gr.map Signer.id)).1⟩,
           [uniqOf (([g] ++ List.replicate (tx.instructions.length - 1) g).map
              fun gr => gr.map Signer.id)]) := by
      unfold ClientTransaction.updateCounters
      rw [if_neg hn0, if_neg (by simp; omega)]
      rfl
    have hall : ClientTransaction.updateCountersAndSign fetch tx [g]
        = ((⟨(assignAll
            (baseMap fetch (([g] ++ List.replicate (tx.instructions.length - 1) g).map
              fun gr => gr.map Signer.id))
            tx.instructions
            (([g] ++ List.replicate (tx.instructions.length - 1) g).map
              fun gr => gr.map Signer.id)).1⟩ : ClientTransaction).signWith
              ([g] ++ List.replicate (tx.instructions.length - 1) g),
           [uniqOf (([g] ++ List.replicate (tx.instructions.length - 1) g).map
              fun gr => gr.map Signer.id)]) := by
      unfold ClientTransaction.updateCountersAndSign
      simp only [List.length_cons, List.length_nil, List.getD_cons_zero, if_pos]
      rw [hmid]
    set tx2mid : ClientTransaction := ⟨(assignAll
        (baseMap fetch (([g] ++ List.replicate (tx.instructions.length - 1) g).map
          fun gr => gr.map Signer.id))
        tx.instructions
        (([g] ++ List.replicate (tx.instructions.length - 1) g).map
          fun gr => gr.map Signer.id)).1⟩ with htx2mid
    have hmlen : tx2mid.instructions.length = tx.instructions.length :=
      assignAll_length tx.instructions _ _
    have hsw : tx2mid.signWith ([g] ++ List.replicate (tx.instructions.length - 1) g)
        = .ok ⟨List.zipWith (fun instr group => instr.signWith tx2mid.hash group)
            tx2mid.instructions ([g] ++ List.replicate (tx.instructions.length - 1) g)⟩ := by
      unfold ClientTransaction.signWith
      rw [if_neg (by rw [hs2len, hmlen]; exact fun h => h rfl)]
    have hgd : ∀ j, j < tx.instructions.length →
        ([g] ++ List.replicate (tx.instructions.length - 1) g).getD j [] = g := by
      intro j hj
      cases j with
      | zero => rfl
      | succ j =>
          have hj2 : j < tx.instructions.length - 1 := by omega
          show (List.replicate (tx.instructions.length - 1) g).getD j [] = g
          rw [List.getD_eq_getElem _ _ (by simpa using hj2)]
          simp
    refine ⟨⟨List.zipWith (fun instr group => instr.signWith tx2mid.hash group)
        tx2mid.instructions ([g] ++ List.replicate (tx.instructions.length - 1) g)⟩,
      ?_, ?_, ⟨tx2mid.hash, ?_⟩⟩
    · rw [hall]
      exact hsw
    · rw [List.length_zipWith, hmlen, hs2len, Nat.min_self]
    · intro i hi
      rw [List.length_zipWith, hmlen, hs2len, Nat.min_self] at hi
      rw [getD_zipWith _ _ _ i default [] (by rw [hmlen]; exact hi) (by rw [hs2len]; exact hi)]
      rw [hgd i hi]
      rfl
  · intro signers hs1 hsn
    have herr : ClientTransaction.updateCounters fetch tx (signers.map fun gr => gr.map Signer.id)
        = (.error "length of signers and instructions do not match", []) := by
      unfold ClientTransaction.updateCounters
      rw [if_neg hn0, if_pos (by simp [hsn])]
    unfold ClientTransaction.updateCountersAndSign
    rw [if_neg hs1]
    dsimp only
    rw [herr]

/-- C10 witness: two delete instructions, one signer group; the call
succeeds and both instructions carry the same single signature over the
common hash. -/
theorem c10_witness :
    ∃ tx2, (ClientTransaction.updateCountersAndSign c10Fetch c10Tx [c10G]).1 = .ok tx2
      ∧ tx2.instructions.length = 2
      ∧ ∃ ctxHash, ∀ i, i < tx2.instructions.length →
          (tx2.instructions.getD i default).signatures
            = c10G.map (fun s => s.sign ctxHash) := by
  have h := c10_single_group_replication c10Fetch c10Tx c10G (by decide)
  obtain ⟨tx2, hok, hlen, hrest⟩ := h.1
  exact ⟨tx2, hok, hlen.trans (by decide), hrest⟩

end Dynasent
